import Mathlib

/-!
A shallow embedding of the command pipeline of `src/llm_terminal.py`
(class `CommandProcessor` and class `TerminalMind`).  Command text is a
`List Char`; `subprocess.run` and the language-model service are oracles
passed in as function arguments.  Each definition names the source function
it embeds and follows its Python semantics step by step.
-/

/-- Python whitespace, as used by `str.strip()`, `str.split()` and the regex
class backslash-s on `str` patterns: the ASCII whitespace characters plus the
Unicode space code points Python treats as whitespace. -/
def pyIsSpace (c : Char) : Bool :=
  c == ' ' || c == '\t' || c == '\n' || c == '\r' || c == '\x0b' || c == '\x0c' ||
  c == '\x1c' || c == '\x1d' || c == '\x1e' || c == '\x1f' || c == '\x85' || c == '\xa0' ||
  c == ' ' || (' ' ≤ c && c ≤ ' ') || c == ' ' || c == ' ' ||
  c == ' ' || c == ' ' || c == '　'

/-- `command.replace('$(', '')` (llm_terminal.py line 42): left-to-right,
non-overlapping deletion of every occurrence of the two-character sequence
dollar, open-paren.  Python's `str.replace` does not rescan the text it has
already emitted, which this recursion mirrors exactly. -/
def removeDollarParen : List Char → List Char
  | [] => []
  | '$' :: '(' :: rest => removeDollarParen rest
  | c :: rest => c :: removeDollarParen rest

/-- `command.replace('\x60', '')` (line 42): drops every backtick. -/
def removeBackticks (cs : List Char) : List Char :=
  cs.filter (fun c => c != '\x60')

/-- `command.replace('\n', ' ')` (line 43). -/
def newlineToSpace (cs : List Char) : List Char :=
  cs.map (fun c => if c = '\n' then ' ' else c)

/-- Python `str.strip()`: drop leading and trailing whitespace. -/
def pyStrip (cs : List Char) : List Char :=
  ((cs.dropWhile pyIsSpace).reverse.dropWhile pyIsSpace).reverse

/-- `CommandProcessor.sanitize_command` (lines 38-44): delete `$(` openers,
delete backticks, turn newlines into spaces, strip. -/
def sanitize_command (cs : List Char) : List Char :=
  pyStrip (newlineToSpace (removeBackticks (removeDollarParen cs)))

/-- Whether `pat` occurs as a contiguous substring of the second list. -/
def containsSub (pat : List Char) : List Char → Bool
  | [] => pat.isEmpty
  | c :: cs => pat.isPrefixOf (c :: cs) || containsSub pat cs

theorem newlineToSpace_not_mem_newline (l : List Char) : '\n' ∉ newlineToSpace l := by
  intro h
  rcases List.mem_map.mp h with ⟨a, _, ha⟩
  by_cases hn : a = '\n' <;> simp [hn] at ha

theorem newlineToSpace_not_mem_backtick (l : List Char) (h : '\x60' ∉ l) :
    '\x60' ∉ newlineToSpace l := by
  intro hm
  rcases List.mem_map.mp hm with ⟨a, hal, ha⟩
  by_cases hn : a = '\n' <;> simp [hn] at ha
  exact h (ha ▸ hal)

theorem removeBackticks_not_mem (l : List Char) : '\x60' ∉ removeBackticks l := by
  intro h
  have := (List.mem_filter.mp h).2
  simp at this

theorem pyStrip_subset (l : List Char) (c : Char) (h : c ∈ pyStrip l) : c ∈ l := by
  unfold pyStrip at h
  rw [List.mem_reverse] at h
  have h1 := (List.dropWhile_sublist (l := (l.dropWhile pyIsSpace).reverse)
    (p := pyIsSpace)).subset h
  rw [List.mem_reverse] at h1
  exact (List.dropWhile_sublist (l := l) (p := pyIsSpace)).subset h1

theorem sanitize_command_backtick_free (cs : List Char) :
    '\x60' ∉ sanitize_command cs := by
  intro h
  exact newlineToSpace_not_mem_backtick _ (removeBackticks_not_mem _)
    (pyStrip_subset _ _ h)

theorem sanitize_command_newline_free (cs : List Char) :
    '\n' ∉ sanitize_command cs := by
  intro h
  exact newlineToSpace_not_mem_newline _ (pyStrip_subset _ _ h)

/-- C1 (amended): for every input string, `sanitize_command` returns a string
with no backtick character and no newline character.  (The original claim
also promised absence of the substring `$(`; the counterexample shows deleting
the `$(` occurrences can splice a fresh one together out of the remaining
characters.) -/
theorem sanitize_command_no_backtick_no_newline (cs : List Char) :
    '\x60' ∉ sanitize_command cs ∧ '\n' ∉ sanitize_command cs :=
  ⟨sanitize_command_backtick_free cs, sanitize_command_newline_free cs⟩

/-- C1 fails as stated on the code: on the four-character input
dollar-dollar-paren-paren, deleting the single `$(` occurrence splices the
outer dollar and paren together, so the sanitized output still contains the
substring `$(`. -/
theorem sanitize_command_dollarParen_cex :
    containsSub (("$(").data) (sanitize_command (("$$((").data)) = true := by decide

theorem dropWhile_dropWhile_eq (p : Char → Bool) (l : List Char) :
    (l.dropWhile p).dropWhile p = l.dropWhile p := by
  induction l with
  | nil => simp
  | cons a as ih =>
    by_cases h : p a
    · simp [List.dropWhile_cons, h, ih]
    · simp [List.dropWhile_cons, h]

theorem dropWhile_head_false (p : Char → Bool) (l : List Char) (c : Char) (r : List Char)
    (h : l.dropWhile p = c :: r) : p c = false := by
  induction l with
  | nil => simp at h
  | cons a as ih =>
    rw [List.dropWhile_cons] at h
    by_cases ha : p a
    · rw [if_pos ha] at h
      exact ih h
    · rw [if_neg ha] at h
      cases h
      exact Bool.eq_false_iff.mpr ha

theorem dropWhile_eq_self_of_head (p : Char → Bool) (l : List Char)
    (h : ∀ c r, l = c :: r → p c = false) : l.dropWhile p = l := by
  cases l with
  | nil => simp
  | cons a as => simp [List.dropWhile_cons, h a as rfl]

theorem pyStrip_idem (l : List Char) : pyStrip (pyStrip l) = pyStrip l := by
  unfold pyStrip
  set f := (l.dropWhile pyIsSpace) with hf
  set m := f.reverse.dropWhile pyIsSpace with hm
  have hback : m.reverse.reverse.dropWhile pyIsSpace = m := by
    rw [List.reverse_reverse, hm, dropWhile_dropWhile_eq]
  have hfront : m.reverse.dropWhile pyIsSpace = m.reverse := by
    apply dropWhile_eq_self_of_head
    intro c r hcr
    have hc : m.reverse.head? = some c := by rw [hcr]; rfl
    rw [List.head?_reverse] at hc
    rcases hfe : f with _ | ⟨a, as⟩
    · rw [hm, hfe] at hc; simp at hc
    · have hpa : pyIsSpace a = false := dropWhile_head_false pyIsSpace l a as (hf ▸ hfe)
      have hmne : m ≠ [] := by
        intro hnil
        rw [hnil] at hcr
        simp at hcr
      have : m.getLast? = f.reverse.getLast? := by
        conv_rhs => rw [← List.takeWhile_append_dropWhile pyIsSpace f.reverse, ← hm]
        rw [List.getLast?_append_of_ne_nil _ hmne]
      rw [this, List.getLast?_reverse, hfe] at hc
      simp at hc
      rw [hc] at hpa
      exact hpa
  rw [hfront, hback]

theorem removeDollarParen_eq_self (l : List Char)
    (h : containsSub (("$(").data) l = false) : removeDollarParen l = l := by
  induction l using removeDollarParen.induct with
  | case1 => rfl
  | case2 rest ih =>
    exfalso
    rw [containsSub] at h
    simp [List.isPrefixOf] at h
  | case3 c rest hne ih =>
    rw [containsSub, Bool.or_eq_false_iff] at h
    cases c with
    | mk v hv =>
      rw [removeDollarParen]
      · rw [ih h.2]
      · exact hne

theorem removeBackticks_eq_self (l : List Char) (h : '\x60' ∉ l) :
    removeBackticks l = l := by
  unfold removeBackticks
  apply List.filter_eq_self.mpr
  intro a ha
  simp
  intro he
  exact h (he ▸ ha)

theorem newlineToSpace_eq_self (l : List Char) (h : '\n' ∉ l) :
    newlineToSpace l = l := by
  unfold newlineToSpace
  induction l with
  | nil => rfl
  | cons a as ih =>
    have hna : a ≠ '\n' := by
      intro he
      exact h (by rw [he]; exact List.mem_cons_self _ _)
    rw [List.map_cons, if_neg hna, ih (fun hm => h (List.mem_cons_of_mem _ hm))]

/-- C3 (amended): `sanitize_command` is idempotent on every input whose
sanitized form is free of the substring `$(`.  (Unrestricted idempotence
fails: see the counterexample, where the first pass splices a new `$(`
together and the second pass deletes it.) -/
theorem sanitize_command_idempotent_of_no_dollarParen (cs : List Char)
    (h : containsSub (("$(").data) (sanitize_command cs) = false) :
    sanitize_command (sanitize_command cs) = sanitize_command cs := by
  conv_lhs => rw [sanitize_command]
  rw [removeDollarParen_eq_self _ h,
    removeBackticks_eq_self _ (sanitize_command_backtick_free cs),
    newlineToSpace_eq_self _ (sanitize_command_newline_free cs)]
  unfold sanitize_command
  rw [pyStrip_idem]

/-- C3's amended theorem holds at a concrete input: sanitizing `ls -la` twice
equals sanitizing it once. -/
theorem sanitize_command_idempotent_witness :
    containsSub (("$(").data) (sanitize_command (("ls -la").data)) = false ∧
    sanitize_command (sanitize_command (("ls -la").data)) =
      sanitize_command (("ls -la").data) :=
  ⟨by decide, sanitize_command_idempotent_of_no_dollarParen (("ls -la").data) (by decide)⟩

/-- C3 fails as stated on the code: on the input dollar-dollar-paren-paren one
pass of `sanitize_command` yields the two characters `$(`, and a second pass
deletes them, so sanitizing twice differs from sanitizing once. -/
theorem sanitize_command_not_idempotent_cex :
    sanitize_command (sanitize_command (("$$((").data)) ≠
      sanitize_command (("$$((").data) := by decide

/-- Case-insensitive (ASCII, as Python `re.IGNORECASE` on these all-ASCII
patterns) literal prefix match: `pat` is given lowercased; on success returns
the remainder of the input after the matched literal. -/
def ciPrefixDrop : List Char → List Char → Option (List Char)
  | [], cs => some cs
  | _ :: _, [] => none
  | p :: ps, c :: cs => if c.toLower = p then ciPrefixDrop ps cs else none

/-- The lazy `.*?lit` idiom under `re.DOTALL`: scan forward to the first
position where the (lowercased) literal matches case-insensitively, and
return the remainder after it. -/
def lazyFind (pat : List Char) : List Char → Option (List Char)
  | [] => ciPrefixDrop pat []
  | c :: cs =>
    match ciPrefixDrop pat (c :: cs) with
    | some r => some r
    | none => lazyFind pat cs

/-- `[x]?` under `re.IGNORECASE`: consume one char equal (case-insensitively)
to `p` if present. -/
def optCi (p : Char) : List Char → List Char
  | [] => []
  | c :: cs => if c.toLower = p then cs else c :: cs

/-- `x?` for a literal char. -/
def optLit (p : Char) : List Char → List Char
  | [] => []
  | c :: cs => if c = p then cs else c :: cs

/-- One match attempt of `Sure!.*?following command[s]?:?\s*`
(`re.DOTALL | re.IGNORECASE`, line 19) at the head of the input: on a match,
the remainder after the whole match.  The trailing optional pieces and the
greedy whitespace run can never fail, so the regex engine commits to the
first position at which `following command` matches. -/
def sureMatchHere (cs : List Char) : Option (List Char) :=
  match ciPrefixDrop (("sure!").data) cs with
  | none => none
  | some r1 =>
    match lazyFind (("following command").data) r1 with
    | none => none
    | some r2 => some ((optLit ':' (optCi 's' r2)).dropWhile pyIsSpace)

/-- One match attempt of `Here.*?command[s]?:?\s*` (line 20) at the head. -/
def hereMatchHere (cs : List Char) : Option (List Char) :=
  match ciPrefixDrop (("here").data) cs with
  | none => none
  | some r1 =>
    match lazyFind (("command").data) r1 with
    | none => none
    | some r2 => some ((optLit ':' (optCi 's' r2)).dropWhile pyIsSpace)

/-- One match attempt of `I can help.*?\s*` (line 21) at the head: the lazy
`.*?` matches the empty string (the rest of the pattern can never fail), so
the whole match is the literal plus the following whitespace run. -/
def iCanHelpMatchHere (cs : List Char) : Option (List Char) :=
  match ciPrefixDrop (("i can help").data) cs with
  | none => none
  | some r => some (r.dropWhile pyIsSpace)

/-- One match attempt of `Please.*?\s*` (line 22) at the head. -/
def pleaseMatchHere (cs : List Char) : Option (List Char) :=
  match ciPrefixDrop (("please").data) cs with
  | none => none
  | some r => some (r.dropWhile pyIsSpace)

/-- `re.sub(pattern, '', text)`: scan left to right, delete each
non-overlapping match and continue scanning after it.  All the matchers used
here consume at least one character per match, so fuel equal to the input
length never runs out before the input empties. -/
def subDeleteAux (m : List Char → Option (List Char)) : Nat → List Char → List Char
  | _, [] => []
  | 0, cs => cs
  | n + 1, c :: cs =>
    match m (c :: cs) with
    | some rest => subDeleteAux m n rest
    | none => c :: subDeleteAux m n cs

def subDelete (m : List Char → Option (List Char)) (cs : List Char) : List Char :=
  subDeleteAux m cs.length cs

/-- The four conversational-preamble deletions of `extract_command`
(lines 19-22), in source order. -/
def stripPreambles (cs : List Char) : List Char :=
  subDelete pleaseMatchHere
    (subDelete iCanHelpMatchHere (subDelete hereMatchHere (subDelete sureMatchHere cs)))

/-- The closing `\n?` followed by three backticks of the fenced-block pattern:
the greedy `\n?` tries to consume a newline first, exactly as the regex engine
does.  Returns the remainder after the closing fence. -/
def fenceTail : List Char → Option (List Char)
  | '\n' :: '\x60' :: '\x60' :: '\x60' :: rest => some rest
  | '\x60' :: '\x60' :: '\x60' :: rest => some rest
  | _ => none

/-- The lazy group `(.*?)` of the fenced-block pattern under `re.DOTALL`:
grow the group one character at a time (shortest first, as a lazy quantifier
does) until the closing fence matches.  Returns the group's content and the
remainder after the whole match. -/
def fenceScan : List Char → List Char → Option (List Char × List Char)
  | acc, [] =>
    match fenceTail [] with
    | some rem => some (acc.reverse, rem)
    | none => none
  | acc, c :: r =>
    match fenceTail (c :: r) with
    | some rem => some (acc.reverse, rem)
    | none => fenceScan (c :: acc) r

/-- After the opening fence and optional language tag: the greedy `\n?`, then
the lazy group, then the closing fence.  If consuming the newline leaves no
way to finish the match, the engine backtracks and the newline joins the lazy
group instead. -/
def fenceAfterTag : List Char → Option (List Char × List Char)
  | '\n' :: r =>
    match fenceScan [] r with
    | some x => some x
    | none => fenceScan [] ('\n' :: r)
  | r => fenceScan [] r

/-- One match attempt at the head of the input of the fenced-code-block
pattern of line 18: three backticks, `(?:bash|shell)?` (alternatives tried in
source order, matching preferred over skipping), `\n?`, the lazy group,
`\n?`, three backticks.  Returns (group content, remainder after match). -/
def fenceMatchHere : List Char → Option (List Char × List Char)
  | '\x60' :: '\x60' :: '\x60' :: rest =>
    match (if ((("bash").data).isPrefixOf rest) then fenceAfterTag (rest.drop 4) else none) with
    | some x => some x
    | none =>
      match (if ((("shell").data).isPrefixOf rest) then fenceAfterTag (rest.drop 5) else none) with
      | some x => some x
      | none => fenceAfterTag rest
  | _ => none

/-- The `re.sub` of line 18, replacing each fenced block by its group: scan
left to right, emit the group of each match, continue after it; every match
consumes at least six characters, so fuel equal to the input length suffices. -/
def fenceSubAux : Nat → List Char → List Char
  | _, [] => []
  | 0, cs => cs
  | n + 1, c :: cs =>
    match fenceMatchHere (c :: cs) with
    | some (g, rest) => g ++ fenceSubAux n rest
    | none => c :: fenceSubAux n cs

def fenceSub (cs : List Char) : List Char := fenceSubAux cs.length cs

/-- Python `text.split('\n')`: split at every newline, keeping empty pieces. -/
def splitOnNl : List Char → List (List Char)
  | [] => [[]]
  | c :: cs =>
    if c = '\n' then [] :: splitOnNl cs
    else
      match splitOnNl cs with
      | [] => [[c]]
      | l :: ls => (c :: l) :: ls

/-- The line test of lines 27-28, applied to the whitespace-stripped line:
non-empty, does not start with `#` or `//`, contains no colon. -/
def lineQualifies (l : List Char) : Bool :=
  !l.isEmpty && !(l.head? == some '#') && !((("//").data).isPrefixOf l) && !(l.contains ':')

/-- `re.sub(r'^\d+\.\s*', '', line)` (line 30): strip one leading run of
ASCII digits followed by a dot and any whitespace.  (`\d+` is greedy and the
dot can only follow the full digit run, so no backtracking arises.) -/
def markerStrip (s : List Char) : List Char :=
  let ds := s.takeWhile (fun c => c.isDigit)
  let rest := s.drop ds.length
  if ds.isEmpty then s
  else if rest.head? = some '.' then rest.tail.dropWhile pyIsSpace else s

/-- The first-qualifying-line loop of lines 25-32: strip each line, take the
first that qualifies, strip its numeric list marker; `none` when no line
qualifies (the loop then leaves `command` as the whole text). -/
def scanLines : List (List Char) → Option (List Char)
  | [] => none
  | l :: ls =>
    let s := pyStrip l
    if lineQualifies s then some (markerStrip s) else scanLines ls

def isMetaChar (c : Char) : Bool := c == '\x60' || c == '$' || c == ' '

/-- `command.strip('\x60$ ')` (line 35): strip backticks, dollar signs and
spaces from both ends. -/
def stripMeta (cs : List Char) : List Char :=
  ((cs.dropWhile isMetaChar).reverse.dropWhile isMetaChar).reverse

/-- `CommandProcessor.extract_command` (lines 14-36): drop fenced code
blocks keeping their content, delete conversational preambles, pick the first
qualifying line (or keep the whole text when none qualifies), strip
surrounding backticks, dollar signs and spaces. -/
def extract_command (cs : List Char) : List Char :=
  let c2 := stripPreambles (fenceSub cs)
  match scanLines (splitOnNl c2) with
  | some l => stripMeta l
  | none => stripMeta c2

/-- Stated from the claim's words, for comparison with `extract_command`:
the first line of the text that is non-empty once whitespace-stripped, does
not start with `#` or `//` and contains no colon, with a leading numeric
list marker stripped. -/
def firstQualifyingLine (text : List Char) : Option (List Char) :=
  (((splitOnNl text).map pyStrip).find? lineQualifies).map markerStrip

def fenceMarker : List Char := ['\x60', '\x60', '\x60']

/-- A text that is exactly a fenced code block: the opening fence, an optional
language tag, a newline, the block's content, a newline, the closing fence. -/
def fenceWrap (tag body : List Char) : List Char :=
  fenceMarker ++ tag ++ '\n' :: (body ++ '\n' :: fenceMarker)

theorem fenceTail_eq_none (l : List Char)
    (h1 : fenceMarker.isPrefixOf l = false)
    (h2 : ∀ r, l = '\n' :: r → fenceMarker.isPrefixOf r = false) :
    fenceTail l = none := by
  rw [fenceTail.eq_def]
  split
  · rename_i rest
    have := h2 ('\x60' :: '\x60' :: '\x60' :: rest) rfl
    simp [fenceMarker, List.isPrefixOf] at this
  · rename_i rest _
    simp [fenceMarker, List.isPrefixOf] at h1
  · rfl

theorem fenceScan_of_no_backtick (body : List Char) (h : '\x60' ∉ body) :
    ∀ acc : List Char,
      fenceScan acc (body ++ '\n' :: fenceMarker) = some (acc.reverse ++ body, []) := by
  induction body with
  | nil =>
    intro acc
    simp [fenceScan, fenceTail, fenceMarker]
  | cons b bs ih =>
    intro acc
    have hb : b ≠ '\x60' := fun he => h (he ▸ List.mem_cons_self _ _)
    have hbs : '\x60' ∉ bs := fun hm => h (List.mem_cons_of_mem _ hm)
    have htl : fenceTail ((b :: bs) ++ '\n' :: fenceMarker) = none := by
      apply fenceTail_eq_none
      · cases hp : fenceMarker.isPrefixOf ((b :: bs) ++ '\n' :: fenceMarker) with
        | false => rfl
        | true =>
          exfalso
          simp [fenceMarker, List.isPrefixOf] at hp
          exact hb hp.1.symm
      · intro r hr
        simp only [List.cons_append] at hr
        cases hr
        cases bs with
        | nil => simp [fenceMarker, List.isPrefixOf]
        | cons x xs =>
          have hx : x ≠ '\x60' := fun he => hbs (he ▸ List.mem_cons_self _ _)
          cases hp : fenceMarker.isPrefixOf ((x :: xs) ++ '\n' :: fenceMarker) with
          | false => rfl
          | true =>
            exfalso
            simp [fenceMarker, List.isPrefixOf] at hp
            exact hx hp.1.symm
    simp only [List.cons_append] at htl ⊢
    rw [fenceScan, htl]
    rw [ih hbs (b :: acc)]
    simp

theorem fenceAfterTag_wrap (body : List Char) (h : '\x60' ∉ body) :
    fenceAfterTag ('\n' :: (body ++ '\n' :: fenceMarker)) = some (body, []) := by
  rw [fenceAfterTag]
  rw [fenceScan_of_no_backtick body h []]
  simp

theorem fenceMatchHere_wrap (tag body : List Char)
    (htag : tag = [] ∨ tag = (("bash").data) ∨ tag = (("shell").data))
    (hb : '\x60' ∉ body) :
    fenceMatchHere (fenceWrap tag body) = some (body, []) := by
  have hafter := fenceAfterTag_wrap body hb
  rcases htag with h | h | h <;> subst h
  · show fenceMatchHere ('\x60' :: '\x60' :: '\x60' :: ('\n' :: (body ++ '\n' :: fenceMarker)))
      = some (body, [])
    rw [fenceMatchHere]
    simp only [List.isPrefixOf]
    simp [hafter]
  · show fenceMatchHere ('\x60' :: '\x60' :: '\x60' ::
      ('b' :: 'a' :: 's' :: 'h' :: '\n' :: (body ++ '\n' :: fenceMarker))) = some (body, [])
    rw [fenceMatchHere]
    simp only [List.isPrefixOf]
    simp [hafter]
  · show fenceMatchHere ('\x60' :: '\x60' :: '\x60' ::
      ('s' :: 'h' :: 'e' :: 'l' :: 'l' :: '\n' :: (body ++ '\n' :: fenceMarker))) = some (body, [])
    rw [fenceMatchHere]
    simp only [List.isPrefixOf]
    simp [hafter]

theorem fenceSub_wrap (tag body : List Char)
    (htag : tag = [] ∨ tag = (("bash").data) ∨ tag = (("shell").data))
    (hb : '\x60' ∉ body) :
    fenceSub (fenceWrap tag body) = body := by
  have hm := fenceMatchHere_wrap tag body htag hb
  have ht : fenceWrap tag body
      = '\x60' :: ('\x60' :: '\x60' :: (tag ++ '\n' :: (body ++ '\n' :: fenceMarker))) := by
    simp [fenceWrap, fenceMarker]
  rw [fenceSub, ht, List.length_cons, fenceSubAux]
  rw [ht] at hm
  rw [hm]
  simp [fenceSubAux]

theorem scanLines_eq_find (ls : List (List Char)) :
    scanLines ls = ((ls.map pyStrip).find? lineQualifies).map markerStrip := by
  induction ls with
  | nil => rfl
  | cons l ls ih =>
    rw [scanLines, List.map_cons, List.find?_cons]
    by_cases h : lineQualifies (pyStrip l)
    · simp [h]
    · simp only [Bool.not_eq_true] at h
      simp [h, ih]

theorem splitOnNl_mem (cs : List Char) :
    ∀ l ∈ splitOnNl cs, ∀ c ∈ l, c ∈ cs := by
  induction cs with
  | nil =>
    intro l hl c hc
    simp [splitOnNl] at hl
    subst hl
    simp at hc
  | cons a as ih =>
    intro l hl c hc
    rw [splitOnNl] at hl
    by_cases ha : a = '\n'
    · rw [if_pos ha] at hl
      rcases List.mem_cons.mp hl with h | h
      · subst h; simp at hc
      · exact List.mem_cons_of_mem _ (ih l h c hc)
    · rw [if_neg ha] at hl
      cases hsp : splitOnNl as with
      | nil =>
        rw [hsp] at hl
        simp at hl
        subst hl
        rcases List.mem_cons.mp hc with h | h
        · exact h ▸ List.mem_cons_self _ _
        · simp at h
      | cons m ms =>
        rw [hsp] at hl
        rcases List.mem_cons.mp hl with h | h
        · subst h
          rcases List.mem_cons.mp hc with h2 | h2
          · exact h2 ▸ List.mem_cons_self _ _
          · exact List.mem_cons_of_mem _ (ih m (hsp ▸ List.mem_cons_self _ _) c h2)
        · exact List.mem_cons_of_mem _ (ih l (hsp ▸ List.mem_cons_of_mem _ h) c hc)

theorem markerStrip_subset (s : List Char) (c : Char) (h : c ∈ markerStrip s) : c ∈ s := by
  unfold markerStrip at h
  by_cases h1 : (s.takeWhile (fun c => c.isDigit)).isEmpty
  · rw [if_pos h1] at h
    exact h
  · rw [if_neg h1] at h
    by_cases h2 : (s.drop (s.takeWhile (fun c => c.isDigit)).length).head? = some '.'
    · rw [if_pos h2] at h
      have h3 := (List.dropWhile_sublist (l := (s.drop
        (s.takeWhile (fun c => c.isDigit)).length).tail) (p := pyIsSpace)).subset h
      have h4 := (List.tail_sublist (s.drop (s.takeWhile (fun c => c.isDigit)).length)).subset h3
      exact List.mem_of_mem_drop h4
    · rw [if_neg h2] at h
      exact h

theorem firstQualifyingLine_subset (text L : List Char) (c : Char)
    (hq : firstQualifyingLine text = some L) (hc : c ∈ L) : c ∈ text := by
  unfold firstQualifyingLine at hq
  rcases Option.map_eq_some'.mp hq with ⟨L0, hfind, hms⟩
  have hLmem : L0 ∈ (splitOnNl text).map pyStrip := List.mem_of_find?_eq_some hfind
  rcases List.mem_map.mp hLmem with ⟨line, hline, hstrip⟩
  have hc0 : c ∈ L0 := by rw [← hms] at hc; exact markerStrip_subset _ _ hc
  have hcl : c ∈ line := by rw [← hstrip] at hc0; exact pyStrip_subset _ _ hc0
  exact splitOnNl_mem text line hline c hcl

theorem containsSub_head_mem (p : Char) (ps l : List Char)
    (h : containsSub (p :: ps) l = true) : p ∈ l := by
  induction l with
  | nil => simp [containsSub, List.isEmpty] at h
  | cons a l ih =>
    rw [containsSub, Bool.or_eq_true] at h
    rcases h with h | h
    · simp [List.isPrefixOf] at h
      exact h.1 ▸ List.mem_cons_self _ _
    · exact List.mem_cons_of_mem _ (ih h)

/-- C4 (amended): for a text that is exactly a triple-backtick fenced code
block (optionally tagged `bash` or `shell`) around a backtick-free body that
the conversational-preamble deletions leave unchanged, and whose first
qualifying line L (non-empty once stripped, not a `#` or `//` comment, no
colon, numeric list marker stripped) carries no surrounding backtick, dollar
or space to trim, `extract_command` returns exactly L, and its result
contains no fence marker.  (Unconditionally the claim fails: a body whose
first qualifying line contains preamble text such as `please` is altered
before the line scan — see the counterexample.) -/
theorem extract_command_fenced (tag body L : List Char)
    (htag : tag = [] ∨ tag = (("bash").data) ∨ tag = (("shell").data))
    (hbt : '\x60' ∉ body)
    (hpre : stripPreambles body = body)
    (hq : firstQualifyingLine body = some L)
    (hL : stripMeta L = L) :
    extract_command (fenceWrap tag body) = L ∧
      containsSub fenceMarker (extract_command (fenceWrap tag body)) = false := by
  have hfence : fenceSub (fenceWrap tag body) = body := fenceSub_wrap tag body htag hbt
  have hscan : scanLines (splitOnNl body) = some L := by
    rw [scanLines_eq_find]
    exact hq
  have hmain : extract_command (fenceWrap tag body) = L := by
    rw [extract_command, hfence, hpre, hscan]
    exact hL
  refine ⟨hmain, ?_⟩
  rw [hmain]
  cases hcs : containsSub fenceMarker L with
  | false => rfl
  | true =>
    exfalso
    have : '\x60' ∈ L := containsSub_head_mem '\x60' ['\x60', '\x60'] L hcs
    exact hbt (firstQualifyingLine_subset body L '\x60' hq this)

/-- C4's amended theorem holds at a concrete input: the block
three-backticks bash, newline, `ls -la`, newline, three-backticks extracts
to `ls -la`. -/
theorem extract_command_fenced_witness :
    ((("bash").data = ([] : List Char) ∨ (("bash").data) = (("bash").data) ∨
        (("bash").data) = (("shell").data)) ∧
      '\x60' ∉ (("ls -la").data) ∧
      stripPreambles (("ls -la").data) = (("ls -la").data) ∧
      firstQualifyingLine (("ls -la").data) = some (("ls -la").data) ∧
      stripMeta (("ls -la").data) = (("ls -la").data)) ∧
    (extract_command (fenceWrap (("bash").data) (("ls -la").data)) = (("ls -la").data) ∧
      containsSub fenceMarker
        (extract_command (fenceWrap (("bash").data) (("ls -la").data))) = false) :=
  ⟨⟨by decide, by decide, by decide, by decide, by decide⟩,
    extract_command_fenced (("bash").data) (("ls -la").data) (("ls -la").data)
      (by decide) (by decide) (by decide) (by decide) (by decide)⟩

/-- C4 fails as stated on the code: the fenced block around the single line
`echo please hi` has that line as its first qualifying line, yet
`extract_command` returns `echo hi` — the preamble deletion for `Please.*?`
fires inside the block content before the line scan. -/
theorem extract_command_fenced_cex :
    firstQualifyingLine (("echo please hi").data) = some (("echo please hi").data) ∧
    extract_command (fenceWrap [] (("echo please hi").data)) = (("echo hi").data) ∧
    (("echo hi").data) ≠ (("echo please hi").data) := ⟨by decide, by decide, by decide⟩

/-- One literal of an install pattern followed by `\s+`: consume the literal,
require at least one whitespace character, then consume the whole whitespace
run.  (In the five patterns of lines 49-55 every literal after a `\s+` starts
with a non-whitespace character, so the greedy `\s+` never needs to backtrack
and taking the maximal run is faithful.) -/
def litWs (lit cs : List Char) : Option (List Char) :=
  if lit.isPrefixOf cs then
    match cs.drop lit.length with
    | c :: rest => if pyIsSpace c then some (rest.dropWhile pyIsSpace) else none
    | [] => none
  else none

/-- `re.match` of an anchored pattern `lit1\s+lit2\s+...\s+litN` (anything may
follow the last literal). -/
def matchSeq : List (List Char) → List Char → Bool
  | [], _ => true
  | t :: ts, cs =>
    if ts.isEmpty then t.isPrefixOf cs
    else
      match litWs t cs with
      | some r => matchSeq ts r
      | none => false

/-- `CommandProcessor.is_package_installation_command` (lines 46-56): anchored
match of one of the five install patterns. -/
def is_package_installation_command (cs : List Char) : Bool :=
  matchSeq [(("pip").data), (("install").data)] cs ||
  matchSeq [(("python").data), (("-m").data), (("pip").data), (("install").data)] cs ||
  matchSeq [(("apt").data), (("install").data)] cs ||
  matchSeq [(("apt-get").data), (("install").data)] cs ||
  matchSeq [(("conda").data), (("install").data)] cs

/-- Claim-side: a non-empty run of whitespace characters. -/
def IsWsRun (ws : List Char) : Prop := ws ≠ [] ∧ ∀ c ∈ ws, pyIsSpace c = true

/-- Claim-side, from the claim's words: the command starts with the given
literal tokens in order, consecutive tokens separated by arbitrary (non-empty)
whitespace, with an arbitrary remainder after the last token. -/
def MatchesSeq : List (List Char) → List Char → Prop
  | [], _ => True
  | t :: ts, cs =>
    if ts.isEmpty then ∃ rest, cs = t ++ rest
    else ∃ ws r, cs = t ++ ws ++ r ∧ IsWsRun ws ∧ MatchesSeq ts r

/-- A usable pattern literal: non-empty and starting with a non-whitespace
character. -/
def goodTok : List Char → Bool
  | [] => false
  | c :: _ => !pyIsSpace c

theorem isPrefixOf_iff_append (t : List Char) :
    ∀ cs : List Char, t.isPrefixOf cs = true ↔ ∃ rest, cs = t ++ rest := by
  induction t with
  | nil =>
    intro cs
    simp [List.isPrefixOf]
  | cons a ts ih =>
    intro cs
    cases cs with
    | nil => simp [List.isPrefixOf]
    | cons c cs' =>
      rw [List.isPrefixOf, Bool.and_eq_true, beq_iff_eq, ih cs']
      constructor
      · rintro ⟨rfl, rest, rfl⟩
        exact ⟨rest, rfl⟩
      · rintro ⟨rest, h⟩
        injection h with h1 h2
        exact ⟨h1.symm, rest, h2⟩

theorem dropWhile_append_ws (ws l : List Char) (hws : ∀ c ∈ ws, pyIsSpace c = true) :
    (ws ++ l).dropWhile pyIsSpace = l.dropWhile pyIsSpace := by
  induction ws with
  | nil => rfl
  | cons a as ih =>
    rw [List.cons_append, List.dropWhile_cons, if_pos (hws a (List.mem_cons_self _ _))]
    exact ih (fun c hc => hws c (List.mem_cons_of_mem _ hc))

theorem litWs_some_decomp (t cs r : List Char) (h : litWs t cs = some r) :
    ∃ ws, cs = t ++ ws ++ r ∧ IsWsRun ws := by
  unfold litWs at h
  by_cases hp : t.isPrefixOf cs
  · rw [if_pos hp] at h
    rcases (isPrefixOf_iff_append t cs).mp hp with ⟨rest0, rfl⟩
    rw [List.drop_left] at h
    cases rest0 with
    | nil => simp at h
    | cons c rest =>
      have h' : (if pyIsSpace c = true then some (rest.dropWhile pyIsSpace) else none)
          = some r := h
      clear h
      by_cases hc : pyIsSpace c
      · rw [if_pos hc] at h'
        injection h' with h
        refine ⟨c :: rest.takeWhile pyIsSpace, ?_, ?_, ?_⟩
        · rw [← h]
          simp [List.takeWhile_append_dropWhile]
        · simp
        · intro x hx
          rcases List.mem_cons.mp hx with rfl | hx
          · exact hc
          · exact List.mem_takeWhile_imp hx
      · rw [if_neg hc] at h'
        simp at h'
  · rw [if_neg hp] at h
    simp at h

theorem litWs_some_of_decomp (t ws r : List Char) (hws : IsWsRun ws)
    (hr : ∀ c rs, r = c :: rs → pyIsSpace c = false) :
    litWs t (t ++ ws ++ r) = some r := by
  unfold litWs
  have hp : t.isPrefixOf (t ++ ws ++ r) = true :=
    (isPrefixOf_iff_append t _).mpr ⟨ws ++ r, by simp⟩
  rw [if_pos hp]
  have hd : (t ++ ws ++ r).drop t.length = ws ++ r := by
    rw [List.append_assoc, List.drop_left]
  rw [hd]
  rcases hws with ⟨hne, hsp⟩
  cases ws with
  | nil => exact absurd rfl hne
  | cons w ws' =>
    rw [List.cons_append]
    show (if pyIsSpace w = true then some ((ws' ++ r).dropWhile pyIsSpace) else none) = some r
    rw [if_pos (hsp w (List.mem_cons_self _ _))]
    rw [dropWhile_append_ws ws' r (fun c hc => hsp c (List.mem_cons_of_mem _ hc))]
    cases r with
    | nil => rfl
    | cons c rs =>
      rw [List.dropWhile_cons, if_neg]
      simp [hr c rs rfl]

theorem matchesSeq_head (t : List Char) (ts : List (List Char)) (cs : List Char)
    (h : MatchesSeq (t :: ts) cs) : ∃ x, cs = t ++ x := by
  rw [MatchesSeq] at h
  cases ts with
  | nil => simpa using h
  | cons t2 ts2 =>
    rw [if_neg (by simp)] at h
    rcases h with ⟨ws, r, hcs, _, _⟩
    exact ⟨ws ++ r, by rw [hcs, List.append_assoc]⟩

theorem matchSeq_iff_matchesSeq (ts : List (List Char))
    (hgood : ts.all goodTok = true) :
    ∀ cs, matchSeq ts cs = true ↔ MatchesSeq ts cs := by
  induction ts with
  | nil =>
    intro cs
    simp [matchSeq, MatchesSeq]
  | cons t ts ih =>
    intro cs
    cases ts with
    | nil =>
      rw [matchSeq, MatchesSeq]
      simp only [List.isEmpty_nil, if_true]
      exact isPrefixOf_iff_append t cs
    | cons t2 ts2 =>
      rw [List.all_cons, Bool.and_eq_true] at hgood
      have ih2 := ih hgood.2
      have hgood2 : goodTok t2 = true := by
        have h2 := hgood.2
        rw [List.all_cons, Bool.and_eq_true] at h2
        exact h2.1
      have hrhead : ∀ r' : List Char, MatchesSeq (t2 :: ts2) r' →
          ∀ c rs, r' = c :: rs → pyIsSpace c = false := by
        intro r' hm c rs hcr
        rcases matchesSeq_head t2 ts2 r' hm with ⟨x, hx⟩
        cases ht2 : t2 with
        | nil => rw [ht2] at hgood2; simp [goodTok] at hgood2
        | cons a t2' =>
          rw [ht2] at hx
          rw [hx] at hcr
          injection hcr with h1 _
          have ha : pyIsSpace a = false := by
            rw [ht2] at hgood2
            simpa [goodTok] using hgood2
          exact h1 ▸ ha
      rw [matchSeq, MatchesSeq, if_neg (by simp), if_neg (by simp)]
      cases hl : litWs t cs with
      | none =>
        constructor
        · intro hfalse
          exact absurd hfalse (by simp)
        · rintro ⟨ws, r, hcs, hws, hm⟩
          have h2 : litWs t cs = some r :=
            hcs ▸ litWs_some_of_decomp t ws r hws (hrhead r hm)
          rw [hl] at h2
          exact Option.noConfusion h2
      | some r =>
        constructor
        · intro hms
          rcases litWs_some_decomp t cs r hl with ⟨ws, hcs, hws⟩
          exact ⟨ws, r, hcs, hws, (ih2 r).mp hms⟩
        · rintro ⟨ws, r', hcs, hws, hm⟩
          have h2 : litWs t cs = some r' :=
            hcs ▸ litWs_some_of_decomp t ws r' hws (hrhead r' hm)
          rw [hl] at h2
          injection h2 with h2
          exact (ih2 r).mpr (h2 ▸ hm)

/-- C8: `is_package_installation_command` is true exactly when the command,
anchored at its start, matches one of `pip install`, `python -m pip install`,
`apt install`, `apt-get install`, `conda install` with arbitrary non-empty
whitespace between tokens (case-sensitively); in particular it accepts
`pip install numpy`, rejects `ls -la`, and rejects a command with leading
whitespace such as `  pip   install x` because the match is anchored. -/
theorem is_package_installation_command_spec :
    (∀ cs : List Char,
      is_package_installation_command cs = true ↔
        (MatchesSeq [(("pip").data), (("install").data)] cs ∨
          MatchesSeq [(("python").data), (("-m").data), (("pip").data), (("install").data)] cs ∨
          MatchesSeq [(("apt").data), (("install").data)] cs ∨
          MatchesSeq [(("apt-get").data), (("install").data)] cs ∨
          MatchesSeq [(("conda").data), (("install").data)] cs)) ∧
    is_package_installation_command (("pip install numpy").data) = true ∧
    is_package_installation_command (("ls -la").data) = false ∧
    is_package_installation_command (("  pip   install x").data) = false := by
  refine ⟨?_, by decide, by decide, by decide⟩
  intro cs
  rw [is_package_installation_command]
  simp only [Bool.or_eq_true]
  rw [matchSeq_iff_matchesSeq _ (by decide) cs, matchSeq_iff_matchesSeq _ (by decide) cs,
    matchSeq_iff_matchesSeq _ (by decide) cs, matchSeq_iff_matchesSeq _ (by decide) cs,
    matchSeq_iff_matchesSeq _ (by decide) cs]
  tauto

/-- Python `command.split()` (no separator): split on runs of whitespace,
discarding empty pieces; fuel equal to the input length suffices since every
step consumes at least one character. -/
def pySplitAux : Nat → List Char → List (List Char)
  | 0, _ => []
  | _, [] => []
  | n + 1, c :: cs =>
    if pyIsSpace c then pySplitAux n cs
    else (c :: cs.takeWhile (fun d => !pyIsSpace d))
      :: pySplitAux n (cs.dropWhile (fun d => !pyIsSpace d))

def pySplit (cs : List Char) : List (List Char) := pySplitAux cs.length cs

/-- The install-command rewrite of `get_llm_response` (lines 148-153):
discard the first two whitespace-separated tokens and rebuild with an
f-string around `' '.join(command.split()[2:])`. -/
def rewrite_install (is_venv : Bool) (cmd : List Char) : List Char :=
  if is_venv then
    (("pip install --upgrade ").data) ++ List.intercalate ([' ']) ((pySplit cmd).drop 2)
  else
    (("python -m pip install --upgrade ").data) ++ List.intercalate ([' ']) ((pySplit cmd).drop 2)

/-- C7: for every detected install command the rewrite discards the first two
whitespace-separated tokens and produces `pip install --upgrade <rest>` in a
virtual environment and `python -m pip install --upgrade <rest>` otherwise;
in particular `pip install numpy pandas` with the flag set becomes
`pip install --upgrade numpy pandas`, and `conda install numpy` with the flag
clear becomes `python -m pip install --upgrade numpy`. -/
theorem rewrite_install_spec :
    (∀ (cmd : List Char) (venv : Bool), is_package_installation_command cmd = true →
      rewrite_install venv cmd =
        (if venv then (("pip install --upgrade ").data)
          else (("python -m pip install --upgrade ").data))
          ++ List.intercalate ([' ']) ((pySplit cmd).drop 2)) ∧
    rewrite_install true (("pip install numpy pandas").data)
      = (("pip install --upgrade numpy pandas").data) ∧
    rewrite_install false (("conda install numpy").data)
      = (("python -m pip install --upgrade numpy").data) := by
  refine ⟨?_, by decide, by decide⟩
  intro cmd venv _h
  cases venv <;> rfl

structure EnvCtx where
  python_path : List Char
  pip_path : List Char
  is_venv : Bool
deriving DecidableEq

/-- `TerminalMind._get_environment_context` (lines 69-81): query `which
python` and `which pip` (the `which` oracle yields the captured stdout, or
`none` when the call raises), then record whether `VIRTUAL_ENV` is set; any
exception yields the empty snapshot `{}`, modelled as `none`. -/
def get_environment_context (which getenv : List Char → Option (List Char)) :
    Option EnvCtx :=
  match which (("python").data), which (("pip").data) with
  | some p, some q =>
    some ⟨pyStrip p, pyStrip q, (getenv (("VIRTUAL_ENV").data)).isSome⟩
  | _, _ => none

/-- The truthiness test `self.environment_context.get('is_venv')` of line 150:
on the empty snapshot `.get` yields `None`, which is falsy, as is `False`. -/
def envIsVenv : Option EnvCtx → Bool
  | none => false
  | some e => e.is_venv

/-- Lines 149-153 of `get_llm_response`: rewrite the extracted command exactly
when it is detected as a package-installation command. -/
def apply_install_rewrite (ctx : Option EnvCtx) (cmd : List Char) : List Char :=
  if is_package_installation_command cmd then rewrite_install (envIsVenv ctx) cmd else cmd

/-- C10: when environment discovery failed (empty snapshot) or `VIRTUAL_ENV`
is unset, the virtual-environment flag is treated as false, so every detected
install command is rewritten to the system-interpreter form
`python -m pip install --upgrade <rest>`. -/
theorem install_rewrite_system_python (which getenv : List Char → Option (List Char))
    (cmd : List Char)
    (henv : get_environment_context which getenv = none ∨
      getenv (("VIRTUAL_ENV").data) = none)
    (hinst : is_package_installation_command cmd = true) :
    apply_install_rewrite (get_environment_context which getenv) cmd =
      (("python -m pip install --upgrade ").data)
        ++ List.intercalate ([' ']) ((pySplit cmd).drop 2) := by
  have hv : envIsVenv (get_environment_context which getenv) = false := by
    rcases henv with h | h
    · rw [h]; rfl
    · rw [get_environment_context]
      cases h1 : which (("python").data) <;> cases h2 : which (("pip").data) <;>
        simp [envIsVenv, h]
  rw [apply_install_rewrite, if_pos hinst, hv]
  rfl

/-- C10's theorem at a concrete input: with every oracle failing, `conda
install numpy` is rewritten to the system-interpreter form. -/
theorem install_rewrite_system_python_witness :
    ((get_environment_context (fun _ => none) (fun _ => none) = none ∨
        (none : Option (List Char)) = none) ∧
      is_package_installation_command (("conda install numpy").data) = true) ∧
    apply_install_rewrite (get_environment_context (fun _ => none) (fun _ => none))
        (("conda install numpy").data) =
      (("python -m pip install --upgrade ").data)
        ++ List.intercalate ([' ']) ((pySplit (("conda install numpy").data)).drop 2) :=
  ⟨⟨Or.inl rfl, by decide⟩,
    install_rewrite_system_python (fun _ => none) (fun _ => none)
      (("conda install numpy").data) (Or.inl rfl) (by decide)⟩

/-- The outcome of one `subprocess.run(command, shell=True, check=True,
capture_output=True, text=True, timeout=300)` call, as seen by
`execute_command`'s `try` block: normal exit with a status and both streams,
a `TimeoutExpired`, or any other exception with its message. -/
inductive ProcResult where
  | exited (code : Nat) (stdout stderr : List Char)
  | timedOut
  | launchFailure (msg : List Char)
deriving DecidableEq

/-- The `timeout=` argument passed to `subprocess.run` on line 99. -/
def timeout_seconds : Nat := 300

structure ExecOutcome where
  success : Bool
  output : List Char
  history : List (List Char × List Char)
  launched : Option (List Char)
deriving DecidableEq

/-- `TerminalMind.execute_command` (lines 83-109), with `subprocess.run`
modelled by the `run` oracle applied to the command line it is given:
sanitize, reject an empty result without launching anything, otherwise launch
and translate the outcome; a zero exit appends `(command, stripped stdout)`
to the history, `check=True` turns a non-zero exit into `CalledProcessError`. -/
def execute_command (run : List Char → ProcResult)
    (history : List (List Char × List Char)) (cmd : List Char) : ExecOutcome :=
  let c := sanitize_command cmd
  if c = [] then
    ⟨false, (("Empty command").data), history, none⟩
  else
    match run c with
    | .exited 0 out _ =>
      ⟨true, pyStrip out, history ++ [(c, pyStrip out)], some c⟩
    | .exited (_ + 1) _ err =>
      ⟨false, (("Error: ").data) ++ pyStrip err, history, some c⟩
    | .timedOut =>
      ⟨false, (("Command timed out after 30 seconds").data), history, some c⟩
    | .launchFailure msg =>
      ⟨false, (("Unexpected error: ").data) ++ msg, history, some c⟩

/-- C9: a command that sanitizes to the empty string makes `execute_command`
return failure with output `Empty command`, leave the history unchanged and
launch no process (the runner oracle is never consulted). -/
theorem execute_command_empty (run : List Char → ProcResult)
    (history : List (List Char × List Char)) (cmd : List Char)
    (h : sanitize_command cmd = []) :
    execute_command run history cmd
      = ⟨false, (("Empty command").data), history, none⟩ ∧
    ∀ run' : List Char → ProcResult,
      execute_command run' history cmd = execute_command run history cmd := by
  constructor
  · rw [execute_command, if_pos h]
  · intro run'
    rw [execute_command, execute_command, if_pos h, if_pos h]

/-- C9's theorem at a concrete input: a command of one backtick between
spaces sanitizes to the empty string and is rejected without launching. -/
theorem execute_command_empty_witness :
    sanitize_command ((" \x60 ").data) = [] ∧
    (execute_command (fun _ => ProcResult.timedOut) [] ((" \x60 ").data)
        = ⟨false, (("Empty command").data), [], none⟩ ∧
      ∀ run' : List Char → ProcResult,
        execute_command run' [] ((" \x60 ").data)
          = execute_command (fun _ => ProcResult.timedOut) [] ((" \x60 ").data)) :=
  ⟨by decide, execute_command_empty (fun _ => ProcResult.timedOut) [] ((" \x60 ").data) (by decide)⟩

/-- C2 records a code bug: the timeout passed to `subprocess.run` is 300
seconds, but the timeout message on line 107 still reports the stale constant
30, so the reported duration is not the configured one.  Concretely: a
non-empty command whose process times out yields success `false` and output
`Command timed out after 30 seconds`, which differs from the message built
from the configured 300-second duration. -/
theorem execute_command_timeout_message :
    timeout_seconds = 300 ∧
    execute_command (fun _ => ProcResult.timedOut) [] (("sleep 301").data)
      = ⟨false, (("Command timed out after 30 seconds").data), [], some (("sleep 301").data)⟩ ∧
    (execute_command (fun _ => ProcResult.timedOut) [] (("sleep 301").data)).output ≠
      (("Command timed out after ").data ++ (toString timeout_seconds).data
        ++ ((" seconds").data)) := ⟨rfl, by decide, by decide⟩

structure RunningContext where
  last_command : List Char
  last_output : List Char
  success : Bool
deriving DecidableEq

/-- The orchestrator's mutable state across one session: `self.context`
(initially the empty dict, modelled `none`), `self.command_history`, and the
position in the oracle streams for model calls and review prompts. -/
structure TMState where
  context : Option RunningContext
  history : List (List Char × List Char)
  n_llm : Nat
  n_review : Nat
deriving DecidableEq

/-- The observable record of one `process_task` invocation: the task text,
what `get_llm_response` returned, the review gate's outcome when consulted,
the executed command with its success flag and output, and — when a
follow-up model request was issued — that request's reply. -/
structure Round where
  user_input : List Char
  suggested : Option (List Char)
  reviewed : Option (Option (List Char))
  executed : Option (List Char × Bool × List Char)
  follow_up : Option (Option (List Char))
deriving DecidableEq

/-- The execute-and-maybe-continue phase of one `process_task` invocation
(lines 200-230): execute the command, fold the result into the context, and
on success issue the follow-up model request; the chain continues exactly
when the reply is non-empty and differs from `DONE`. -/
def exec_phase (suggest : Nat → Option (List Char)) (run : List Char → ProcResult)
    (st2 : TMState) (ui cmd0 : List Char) (rv : Option (Option (List Char)))
    (cmd : List Char) : Round × TMState × Option (List Char) :=
  let ex := execute_command run st2.history cmd
  if ex.success then
    let st3 : TMState :=
      { st2 with history := ex.history, context := some ⟨cmd, ex.output, true⟩ }
    let fu := suggest st3.n_llm
    let st4 : TMState := { st3 with n_llm := st3.n_llm + 1 }
    let rnd : Round := ⟨ui, some cmd0, rv, some (cmd, true, ex.output), some fu⟩
    match fu with
    | some f =>
      if f = [] ∨ f = (("DONE").data) then (rnd, st4, none)
      else (rnd, st4, some ((("Continue with: ").data) ++ f))
    | none => (rnd, st4, none)
  else
    (⟨ui, some cmd0, rv, some (cmd, false, ex.output), none⟩,
      { st2 with history := ex.history, context := some ⟨cmd, ex.output, false⟩ },
      none)

/-- One invocation of `TerminalMind.process_task` (lines 186-230) up to the
point where it either stops or recurses.  `suggest n` is the value returned
by the n-th `get_llm_response` call of the run (the model service composed
with extraction and rewriting; `none` models the exception path returning
`None`); `review n` is the n-th interactive review outcome.  Returns the
round's record, the state afterwards, and `some continuationText` when the
code reaches the recursive call on line 223. -/
def task_step (suggest : Nat → Option (List Char)) (run : List Char → ProcResult)
    (interactive : Bool) (review : Nat → Option (List Char))
    (st : TMState) (ui : List Char) : Round × TMState × Option (List Char) :=
  match suggest st.n_llm with
  | none => (⟨ui, none, none, none, none⟩, { st with n_llm := st.n_llm + 1 }, none)
  | some cmd0 =>
    if cmd0 = [] then
      (⟨ui, some cmd0, none, none, none⟩, { st with n_llm := st.n_llm + 1 }, none)
    else if interactive then
      match review st.n_review with
      | none =>
        (⟨ui, some cmd0, some none, none, none⟩,
          { st with n_llm := st.n_llm + 1, n_review := st.n_review + 1 }, none)
      | some c =>
        if c = [] then
          (⟨ui, some cmd0, some (some c), none, none⟩,
            { st with n_llm := st.n_llm + 1, n_review := st.n_review + 1 }, none)
        else
          exec_phase suggest run
            { st with n_llm := st.n_llm + 1, n_review := st.n_review + 1 }
            ui cmd0 (some (some c)) c
    else
      exec_phase suggest run { st with n_llm := st.n_llm + 1 } ui cmd0 none cmd0

/-- `TerminalMind.process_task` with explicit fuel bounding the continuation
chain the caller is willing to follow: each invocation performs `task_step`
and recurses on `Continue with: <follow-up>` exactly when the source
recurses.  Returns the final state, the rounds in invocation order, and
`true` when the chain stopped by itself (`false` when it was still trying to
recurse as the fuel ran out — the source has no such bound and would keep
going). -/
def process_task (suggest : Nat → Option (List Char)) (run : List Char → ProcResult)
    (interactive : Bool) (review : Nat → Option (List Char)) :
    Nat → TMState → List Char → TMState × List Round × Bool
  | 0, st, _ => (st, [], false)
  | fuel + 1, st, ui =>
    match task_step suggest run interactive review st ui with
    | (r, st', none) => (st', [r], true)
    | (r, st', some ui') =>
      let res := process_task suggest run interactive review fuel st' ui'
      (res.1, r :: res.2.1, res.2.2)

theorem exec_phase_shape (suggest : Nat → Option (List Char)) (run : List Char → ProcResult)
    (st2 : TMState) (ui cmd0 : List Char) (rv : Option (Option (List Char)))
    (cmd : List Char) (r : Round) (st' : TMState) (nxt : Option (List Char))
    (heq : exec_phase suggest run st2 ui cmd0 rv cmd = (r, st', nxt)) :
    (r.follow_up.isSome = true → ∃ c out, r.executed = some (c, true, out)) ∧
    (∀ ui', nxt = some ui' → ∃ f, r.follow_up = some (some f) ∧
      f ≠ [] ∧ f ≠ (("DONE").data) ∧ ui' = (("Continue with: ").data) ++ f) := by
  unfold exec_phase at heq
  by_cases hex : (execute_command run st2.history cmd).success = true
  · rw [if_pos hex] at heq
    cases hs2 : suggest st2.n_llm with
    | none =>
      simp only [hs2, Prod.mk.injEq] at heq
      obtain ⟨rfl, rfl, rfl⟩ := heq
      exact ⟨fun _ => ⟨_, _, rfl⟩, fun ui' h => by simp at h⟩
    | some f =>
      simp only [hs2] at heq
      by_cases hf : f = [] ∨ f = (("DONE").data)
      · rw [if_pos hf] at heq
        simp only [Prod.mk.injEq] at heq
        obtain ⟨rfl, rfl, rfl⟩ := heq
        exact ⟨fun _ => ⟨_, _, rfl⟩, fun ui' h => by simp at h⟩
      · rw [if_neg hf] at heq
        simp only [Prod.mk.injEq] at heq
        obtain ⟨rfl, rfl, rfl⟩ := heq
        refine ⟨fun _ => ⟨_, _, rfl⟩, fun ui' h => ?_⟩
        injection h with h
        refine ⟨f, rfl, ?_, ?_, h.symm⟩
        · intro he; exact hf (Or.inl he)
        · intro he; exact hf (Or.inr he)
  · rw [if_neg hex] at heq
    simp only [Prod.mk.injEq] at heq
    obtain ⟨rfl, rfl, rfl⟩ := heq
    exact ⟨fun h => by simp at h, fun ui' h => by simp at h⟩

theorem task_step_shape (suggest : Nat → Option (List Char)) (run : List Char → ProcResult)
    (interactive : Bool) (review : Nat → Option (List Char)) (st : TMState) (ui : List Char)
    (r : Round) (st' : TMState) (nxt : Option (List Char))
    (heq : task_step suggest run interactive review st ui = (r, st', nxt)) :
    (r.follow_up.isSome = true → ∃ c out, r.executed = some (c, true, out)) ∧
    (∀ ui', nxt = some ui' → ∃ f, r.follow_up = some (some f) ∧
      f ≠ [] ∧ f ≠ (("DONE").data) ∧ ui' = (("Continue with: ").data) ++ f) := by
  unfold task_step at heq
  cases hs1 : suggest st.n_llm with
  | none =>
    simp only [hs1, Prod.mk.injEq] at heq
    obtain ⟨rfl, rfl, rfl⟩ := heq
    exact ⟨fun h => by simp at h, fun ui' h => by simp at h⟩
  | some cmd0 =>
    simp only [hs1] at heq
    by_cases h0 : cmd0 = []
    · rw [if_pos h0] at heq
      simp only [Prod.mk.injEq] at heq
      obtain ⟨rfl, rfl, rfl⟩ := heq
      exact ⟨fun h => by simp at h, fun ui' h => by simp at h⟩
    · rw [if_neg h0] at heq
      cases hi : interactive with
      | true =>
        simp only [hi, if_true] at heq
        cases hrv : review st.n_review with
        | none =>
          simp only [hrv, Prod.mk.injEq] at heq
          obtain ⟨rfl, rfl, rfl⟩ := heq
          exact ⟨fun h => by simp at h, fun ui' h => by simp at h⟩
        | some c =>
          simp only [hrv] at heq
          by_cases hc : c = []
          · rw [if_pos hc] at heq
            simp only [Prod.mk.injEq] at heq
            obtain ⟨rfl, rfl, rfl⟩ := heq
            exact ⟨fun h => by simp at h, fun ui' h => by simp at h⟩
          · rw [if_neg hc] at heq
            exact exec_phase_shape _ _ _ _ _ _ _ _ _ _ heq
      | false =>
        simp only [hi, Bool.false_eq_true, if_false] at heq
        exact exec_phase_shape _ _ _ _ _ _ _ _ _ _ heq

/-- C6: in every run of `process_task`, a round records a follow-up model
request only when that round's execution succeeded — after a failed
execution the chain stops without asking the model anything (and recursion
only ever happens out of the success branch). -/
theorem process_task_follow_up_only_after_success
    (suggest : Nat → Option (List Char)) (run : List Char → ProcResult)
    (interactive : Bool) (review : Nat → Option (List Char))
    (fuel : Nat) (st : TMState) (ui : List Char) (r : Round)
    (hr : r ∈ (process_task suggest run interactive review fuel st ui).2.1)
    (hfu : r.follow_up.isSome = true) :
    ∃ cmd out, r.executed = some (cmd, true, out) := by
  induction fuel generalizing st ui with
  | zero => simp [process_task] at hr
  | succ n ih =>
    rw [process_task] at hr
    rcases hts : task_step suggest run interactive review st ui with ⟨r0, st', nxt⟩
    rw [hts] at hr
    cases nxt with
    | none =>
      simp at hr
      subst hr
      exact (task_step_shape _ _ _ _ _ _ _ _ _ hts).1 hfu
    | some ui' =>
      simp at hr
      rcases hr with rfl | hr
      · exact (task_step_shape _ _ _ _ _ _ _ _ _ hts).1 hfu
      · exact ih st' ui' hr

def initTMState : TMState := ⟨none, [], 0, 0⟩

/-- C6's theorem at a concrete run: one successful `ls` whose follow-up reply
is `DONE`; the single round records a follow-up request and a successful
execution. -/
theorem process_task_follow_up_witness :
    ((⟨(("list files").data), some (("ls").data), none,
        some ((("ls").data), true, (("ok").data)), some (some (("DONE").data))⟩ : Round)
      ∈ (process_task (fun n => if n = 0 then some (("ls").data) else some (("DONE").data))
          (fun _ => ProcResult.exited 0 (("ok").data) []) false (fun _ => none)
          1 initTMState (("list files").data)).2.1 ∧
      (Round.follow_up ⟨(("list files").data), some (("ls").data), none,
        some ((("ls").data), true, (("ok").data)), some (some (("DONE").data))⟩).isSome = true) ∧
    ∃ cmd out, Round.executed ⟨(("list files").data), some (("ls").data), none,
        some ((("ls").data), true, (("ok").data)), some (some (("DONE").data))⟩
      = some (cmd, true, out) :=
  ⟨⟨by decide, by decide⟩,
    process_task_follow_up_only_after_success
      (fun n => if n = 0 then some (("ls").data) else some (("DONE").data))
      (fun _ => ProcResult.exited 0 (("ok").data) []) false (fun _ => none)
      1 initTMState (("list files").data) _ (by decide) (by decide)⟩

/-- C5 (amended): `process_task` imposes no fixed maximum chain length (the
counterexample exhibits chains of every depth); what holds is that the chain
is extended one level exactly when the follow-up reply exists, is non-empty
and differs from `DONE` — every round other than the last records such a
reply. -/
theorem process_task_non_final_round_has_follow_up
    (suggest : Nat → Option (List Char)) (run : List Char → ProcResult)
    (interactive : Bool) (review : Nat → Option (List Char))
    (fuel : Nat) (st : TMState) (ui : List Char) (i : Nat) (r : Round)
    (hget : (process_task suggest run interactive review fuel st ui).2.1[i]? = some r)
    (hlt : i + 1 < (process_task suggest run interactive review fuel st ui).2.1.length) :
    ∃ f, r.follow_up = some (some f) ∧ f ≠ [] ∧ f ≠ (("DONE").data) := by
  induction fuel generalizing st ui i with
  | zero => simp [process_task] at hget
  | succ n ih =>
    rw [process_task] at hget hlt
    rcases hts : task_step suggest run interactive review st ui with ⟨r0, st', nxt⟩
    rw [hts] at hget hlt
    cases nxt with
    | none => simp at hlt
    | some ui' =>
      cases i with
      | zero =>
        simp at hget
        subst hget
        rcases (task_step_shape _ _ _ _ _ _ _ _ _ hts).2 ui' rfl with ⟨f, hf1, hf2, hf3, _⟩
        exact ⟨f, hf1, hf2, hf3⟩
      | succ j =>
        simp at hget hlt
        exact ih st' ui' j hget hlt

def constSuggest : Nat → Option (List Char) := fun _ => some (("ls").data)

def constRun : List Char → ProcResult := fun _ => ProcResult.exited 0 [] []

theorem task_step_const (st : TMState) (ui : List Char) :
    (task_step constSuggest constRun false (fun _ => none) st ui).2.2
      = some (("Continue with: ls").data) := rfl

theorem process_task_const_len :
    ∀ (n : Nat) (st : TMState) (ui : List Char),
      (process_task constSuggest constRun false (fun _ => none) n st ui).2.1.length = n ∧
      (process_task constSuggest constRun false (fun _ => none) n st ui).2.2 = false := by
  intro n
  induction n with
  | zero => intro st ui; exact ⟨rfl, rfl⟩
  | succ n ih =>
    intro st ui
    rw [process_task]
    rcases hts : task_step constSuggest constRun false (fun _ => none) st ui with ⟨r0, st', nxt⟩
    have hnxt : nxt = some (("Continue with: ls").data) := by
      have h := task_step_const st ui
      rw [hts] at h
      exact h
    subst hnxt
    refine ⟨?_, ?_⟩
    · show (r0 :: (process_task constSuggest constRun false (fun _ => none) n st'
        (("Continue with: ls").data)).2.1).length = n + 1
      rw [List.length_cons, (ih st' _).1]
    · show (process_task constSuggest constRun false (fun _ => none) n st'
        (("Continue with: ls").data)).2.2 = false
      exact (ih st' _).2

def initUserInput : List Char := ("list files").data

/-- C5 fails as stated on the code: with a model oracle that keeps replying
`ls`, for every bound B the chain of B+1 permitted continuations is fully
used and the orchestrator is still trying to recurse, so no maximum chain
length bounds `process_task`'s recursion depth. -/
theorem process_task_depth_unbounded_cex :
    ¬ ∃ B : Nat, ∀ n : Nat,
      (process_task constSuggest constRun false (fun _ => none) n initTMState
        initUserInput).2.1.length ≤ B := by
  rintro ⟨B, hB⟩
  have h := hB (B + 1)
  rw [(process_task_const_len (B + 1) initTMState initUserInput).1] at h
  omega

def witSuggest : Nat → Option (List Char) := fun n =>
  if n = 0 then some (("ls").data)
  else if n = 1 then some (("pwd").data)
  else if n = 2 then some (("pwd").data)
  else some (("DONE").data)

/-- C5's amended theorem at a concrete run of two rounds: the first (non-final)
round's follow-up reply is `pwd`, non-empty and different from `DONE`. -/
theorem process_task_non_final_witness :
    ((process_task witSuggest (fun _ => ProcResult.exited 0 [] []) false (fun _ => none)
        2 initTMState initUserInput).2.1[0]?
      = some ⟨initUserInput, some (("ls").data), none,
          some ((("ls").data), true, []), some (some (("pwd").data))⟩ ∧
      0 + 1 < (process_task witSuggest (fun _ => ProcResult.exited 0 [] []) false
        (fun _ => none) 2 initTMState initUserInput).2.1.length) ∧
    ∃ f, Round.follow_up ⟨initUserInput, some (("ls").data), none,
        some ((("ls").data), true, []), some (some (("pwd").data))⟩
      = some (some f) ∧ f ≠ [] ∧ f ≠ (("DONE").data) :=
  ⟨⟨by decide, by decide⟩,
    process_task_non_final_round_has_follow_up witSuggest
      (fun _ => ProcResult.exited 0 [] []) false (fun _ => none)
      2 initTMState initUserInput 0 _ (by decide) (by decide)⟩
